import Mathlib

/-!
Verification of the `ppproto` PPP implementation.

This file contains a shallow embedding of the two core modules of the
repository — the PPPoS frame reader (`src/pppos/frame_reader.rs`) and the
option-negotiation state machine (`src/options.rs`) — together with theorems
settling the specification claims about them.

Modelling conventions:
* bytes (`u8`) are `Nat` (with explicit `% 256` / `< 256` side conditions
  where it matters), byte slices are `List Nat`;
* `usize` is `Nat`, with the `usize::MAX` overflow guard kept literal;
* fallible Rust functions return the mutated state together with an
  `Option Error` (mirroring `&mut self` methods returning `Result<(), Error>`:
  mutations performed before an error are preserved);
* output written to a `FrameWriter` is modelled at packet granularity as a
  list of `Sent` values.
-/

namespace PPProto

/-- Modelled from the spec: the CRC-16 codec (`src/pppos/crc.rs` is not part
of the provided sources).  Spec section 4.1: "Computes the standard
CRC-16/CCITT-style checksum (RFC 1662 FCS) over `bytes`, seeded with
`initial_register`".  This is the RFC 1662 bit-reflected FCS-16 with
polynomial `0x8408`. -/
def crcBit (fcs : Nat) : Nat :=
  if fcs % 2 = 1 then (fcs / 2) ^^^ 0x8408 else fcs / 2

/-- One byte of the RFC 1662 FCS-16: xor the byte into the register, then
run eight bit steps. -/
def crcByteStep (fcs b : Nat) : Nat :=
  crcBit (crcBit (crcBit (crcBit (crcBit (crcBit (crcBit (crcBit (fcs ^^^ (b % 256)))))))))

/-- Modelled from the spec: `crc16(initial_register, bytes) -> u16`
(spec section 4.1). -/
def crc16 (init : Nat) (data : List Nat) : Nat :=
  data.foldl crcByteStep init

/-- `usize::MAX` on the 64-bit targets the crate builds for. -/
def USIZE_MAX : Nat := 2 ^ 64 - 1

/-- The frame reader's scanning state (`enum State` in
`src/pppos/frame_reader.rs`). -/
inductive RState where
  | start
  | address
  | data
  | complete
deriving DecidableEq, Repr

/-- `struct FrameReader` from `src/pppos/frame_reader.rs`.  The destination
buffer `buf` is owned by the caller and passed to `consume` separately,
exactly as in the source. -/
structure FrameReader where
  state : RState
  escape : Bool
  len : Nat
deriving DecidableEq, Repr

/-- `FrameReader::new`. -/
def FrameReader.new : FrameReader :=
  { state := .start, escape := false, len := 0 }

/-- One iteration of the `for` loop in `FrameReader::consume`, for a reader
that is not in the `Complete` state (the `Complete` arm of the source match
returns from `consume` instead; for totality it is the identity here and is
never reached from `consume`).  Returns the updated reader and buffer. -/
def step (r : FrameReader) (buf : List Nat) (b : Nat) : FrameReader × List Nat :=
  match r.state with
  | .start => if b = 0x7e then ({ r with state := .address }, buf) else (r, buf)
  | .address =>
      if b = 0xff then ({ r with state := .data }, buf)
      else if b = 0x7e then ({ r with state := .address }, buf)
      else ({ r with state := .start }, buf)
  | .data =>
      if b = 0x7e then
        -- End of packet
        let ok := r.len ≥ 3 ∧ buf.getD 0 0 = 0x03 ∧ crc16 0x00FF (buf.take r.len) = 0xf0b8
        (({ r with state := if ok then .complete else .address }), buf)
      else if b = 0x7d then ({ r with escape := true }, buf)
      else
        let b' := if r.escape then b ^^^ 0x20 else b
        if r.len = USIZE_MAX ∨ r.len ≥ buf.length then
          ({ r with state := .start, len := 0, escape := false }, buf)
        else
          ({ r with len := r.len + 1, escape := false }, buf.set r.len b')
  | .complete => (r, buf)

/-- `FrameReader::consume`: feeds `data` byte by byte; stops (without
consuming the byte) as soon as the state is `Complete`.  Returns the reader,
the buffer, and the number of input bytes consumed. -/
def consume (r : FrameReader) (buf : List Nat) : List Nat → FrameReader × List Nat × Nat
  | [] => (r, buf, 0)
  | b :: rest =>
    match r.state with
    | .complete => (r, buf, 0)
    | _ =>
      let s := step r buf b
      let t := consume s.1 s.2 rest
      (t.1, t.2.1, t.2.2 + 1)

/-- `FrameReader::receive`: if a frame is complete, yields the payload range
`1 .. len - 2` and resumes scanning from `Address` with `len` reset. -/
def receiveFn (r : FrameReader) : Option (Nat × Nat) × FrameReader :=
  match r.state with
  | .complete => (some (1, r.len - 2), { r with state := .address, len := 0 })
  | _ => (none, r)

/-- The byte slice a `receive`d range denotes inside the destination
buffer. -/
def extractRange (buf : List Nat) (lo hi : Nat) : List Nat :=
  (buf.take hi).drop lo

/-- Reference runner: feed the stream one byte at a time, draining every
frame with `receive` the moment it completes.  Used as the common reference
point for the chunking-independence claim. -/
def runBytes (r : FrameReader) (buf : List Nat) :
    List Nat → FrameReader × List Nat × List (List Nat)
  | [] => (r, buf, [])
  | b :: rest =>
    let s := step r buf b
    match (receiveFn s.1).1 with
    | some lohi =>
        let t := runBytes (receiveFn s.1).2 s.2 rest
        (t.1, t.2.1, extractRange s.2 lohi.1 lohi.2 :: t.2.2)
    | none => runBytes s.1 s.2 rest

/-- The driver the spec describes: submit a chunk to `consume`; whenever a
frame completes, drain it with `receive` and resubmit the unconsumed
bytes. -/
def runChunk (r : FrameReader) (buf : List Nat) (chunk : List Nat) :
    FrameReader × List Nat × List (List Nat) :=
  let t := consume r buf chunk
  match (receiveFn t.1).1 with
  | some lohi =>
      let r2 := (receiveFn t.1).2
      let pl := extractRange t.2.1 lohi.1 lohi.2
      if h : chunk.length ≤ t.2.2 then (r2, t.2.1, [pl])
      else
        let u := runChunk r2 t.2.1 (chunk.drop t.2.2)
        (u.1, u.2.1, pl :: u.2.2)
  | none => (t.1, t.2.1, [])
termination_by 2 * chunk.length + (if r.state = .complete then 1 else 0)
decreasing_by
  simp only [List.length_drop]
  have h' : ¬ chunk.length ≤ (consume r buf chunk).2.2 := h
  by_cases hcs : r.state = .complete
  · have h0 : consume r buf chunk = (r, buf, 0) := by
      cases chunk with
      | nil => rfl
      | cons b rest => simp [consume, hcs]
    have ha : (receiveFn (consume r buf chunk).1).2.state = RState.address := by
      rw [h0]
      simp [receiveFn, hcs]
    rw [ha]
    simp [hcs, h0] at h' ⊢
  · have h1 : 1 ≤ (consume r buf chunk).2.2 := by
      cases chunk with
      | nil => simp at h'
      | cons c cs =>
        cases hs : r.state <;> simp [consume, hs] <;> simp [hs] at hcs
    have h2 : (if (receiveFn (consume r buf chunk).1).2.state = RState.complete
        then 1 else 0) ≤ 1 := by
      split <;> omega
    simp only [hcs, if_false]
    omega

/-- Feed a list of chunks successively through `runChunk`, accumulating the
retrieved payloads. -/
def runChunks (r : FrameReader) (buf : List Nat) :
    List (List Nat) → FrameReader × List Nat × List (List Nat)
  | [] => (r, buf, [])
  | c :: cs =>
    let t := runChunk r buf c
    let u := runChunks t.1 t.2.1 cs
    (u.1, u.2.1, t.2.2 ++ u.2.2)

/-! ## The option-negotiation state machine (`src/options.rs`) -/

/-- The crate's error type (defined outside the provided sources).
`tooShort` is the variant `handle`/`parse_options` return on malformed input
(`Error::TooShort`); `noMem` models the writer-path buffer-exhaustion error
(spec section 7). -/
inductive Error where
  | tooShort
  | noMem
deriving DecidableEq, Repr

/-- Modelled from the spec: the numeric values of the packet `Code`
enumeration (its definition lies outside the provided sources; only
`Code::from`/`into` and the derived ordering are used by `options.rs`).
Spec sections 3 and 6 list the RFC 1661 codes — Configure-Request/Ack/Nack/
Reject, Terminate-Request/Ack, Code-Reject, Protocol-Reject, Echo-Request/
Reply — i.e. values 1..10, and section 4.5 fixes the resulting ordering
Ack < Nack < Reject used by `received_configure_req`. -/
inductive Code where
  | configureReq
  | configureAck
  | configureNack
  | configureRej
  | terminateReq
  | terminateAck
  | codeRej
  | protocolRej
  | echoReq
  | echoReply
  | unknown (v : Nat)
deriving DecidableEq, Repr

def Code.toNat : Code → Nat
  | .configureReq => 1
  | .configureAck => 2
  | .configureNack => 3
  | .configureRej => 4
  | .terminateReq => 5
  | .terminateAck => 6
  | .codeRej => 7
  | .protocolRej => 8
  | .echoReq => 9
  | .echoReply => 10
  | .unknown v => v

/-- `Code::from(u8)`. -/
def Code.ofNat (v : Nat) : Code :=
  if v = 1 then .configureReq
  else if v = 2 then .configureAck
  else if v = 3 then .configureNack
  else if v = 4 then .configureRej
  else if v = 5 then .terminateReq
  else if v = 6 then .terminateAck
  else if v = 7 then .codeRej
  else if v = 8 then .protocolRej
  else if v = 9 then .echoReq
  else if v = 10 then .echoReply
  else .unknown v

/-- `enum Verdict` from `src/options.rs`. -/
inductive Verdict where
  | ack
  | nack (data : List Nat)
  | rej
deriving DecidableEq, Repr

/-- `enum State` from `src/options.rs` (the negotiation states). -/
inductive NState where
  | closed
  | reqSent
  | ackReceived
  | ackSent
  | opened
deriving DecidableEq, Repr

/-- The `Protocol` trait from `src/options.rs`, for a sub-protocol with
internal state `S`: each `&mut self` trait method becomes a function
returning the updated state.  (`protocol()` — the constant 2-byte protocol
field — is omitted; it tags every outgoing packet identically.) -/
structure Protocol (S : Type) where
  ownOptions : S → List Nat × S
  ownOptionNacked : S → Nat → List Nat → Bool → S
  peerOptionsStart : S → S
  peerOptionReceived : S → Nat → List Nat → Verdict × S

/-- `struct StateMachine` from `src/options.rs`. -/
structure SM (S : Type) where
  id : Nat
  state : NState
  proto : S
deriving DecidableEq, Repr

/-- `StateMachine::new`. -/
def SM.new {S : Type} (s : S) : SM S :=
  { id := 1, state := .closed, proto := s }

/-- One item written to the `FrameWriter`, at packet granularity:
`PacketWriter::write(w, protocol, code, id)` of a buffered `body`, or the
raw bytes of an echo reply. -/
inductive Sent where
  | packet (code : Code) (id : Nat) (body : List Nat)
  | raw (bytes : List Nat)
deriving DecidableEq, Repr

/-- The outcome of a `&mut self` state-machine operation: the updated
machine, everything written to the frame writer, and the returned error, if
any (mutations made before the error are preserved, as with `&mut self` in
the source). -/
structure Outcome (S : Type) where
  machine : SM S
  sent : List Sent
  err : Option Error
deriving DecidableEq, Repr

/-- Modelled from the spec: `PacketWriter::append_option`
(`packet_writer.rs` lies outside the provided sources): TLV-encodes one
option into the buffered packet body, "validating 2 <= option length <= 255"
(spec section 4.3); failure is the writer-path buffer error. -/
def appendOption (body : List Nat) (code : Nat) (data : List Nat) :
    List Nat × Option Error :=
  if data.length + 2 > 255 then (body, some .noMem)
  else (body ++ code :: (data.length + 2) :: data, none)

/-- The loop of `parse_options` (after the 6-byte header has been skipped):
reads TLV options in order, invoking `f` on each; stops at the first
malformed option (`TooShort`) or the first error returned by `f`,
preserving the mutations `f` made so far. -/
def parseOptionsGo {A : Type} (f : A → Nat → List Nat → A × Option Error)
    (a : A) (pkt : List Nat) : A × Option Error :=
  if pkt.length = 0 then (a, none)
  else if pkt.length < 2 then (a, some .tooShort)
  else
    let code := pkt.getD 0 0
    let len := pkt.getD 1 0
    if pkt.length < len then (a, some .tooShort)
    else if len < 2 then (a, some .tooShort)
    else
      match f a code ((pkt.take len).drop 2) with
      | (a', some e) => (a', some e)
      | (a', none) => parseOptionsGo f a' (pkt.drop len)
termination_by pkt.length
decreasing_by
  simp only [List.length_drop]
  omega

/-- `fn parse_options` from `src/options.rs`. -/
def parse_options {A : Type} (pkt : List Nat)
    (f : A → Nat → List Nat → A × Option Error) (a : A) : A × Option Error :=
  if pkt.length < 6 then (a, some .tooShort)
  else parseOptionsGo f a (pkt.drop 6)

/-- Result of `received_configure_req`: the `Ok(bool)` value (fully acked?),
the mutated protocol state, the packets written, and the error, if any. -/
structure RcrResult (S : Type) where
  acked : Bool
  proto : S
  sent : List Sent
  err : Option Error
deriving DecidableEq, Repr

/-- The per-option closure inside `received_configure_req`: accumulator is
(running reply code, buffered reply body, protocol state). -/
def rcrStep {S : Type} (P : Protocol S) (acc : Code × List Nat × S)
    (ocode : Nat) (odata : List Nat) : (Code × List Nat × S) × Option Error :=
  let vs := P.peerOptionReceived acc.2.2 ocode odata
  let rc : Code :=
    match vs.1 with
    | .ack => .configureAck
    | .nack _ => .configureNack
    | .rej => .configureRej
  let d : List Nat :=
    match vs.1 with
    | .nack nd => nd
    | _ => odata
  let c1 := if acc.1.toNat < rc.toNat then rc else acc.1
  let b1 := if acc.1.toNat < rc.toNat then [] else acc.2.1
  if c1 = rc then
    match appendOption b1 ocode d with
    | (b2, none) => ((c1, b2, vs.2), none)
    | (b2, some e) => ((c1, b2, vs.2), some e)
  else ((c1, b1, vs.2), none)

/-- `StateMachine::received_configure_req`. -/
def received_configure_req {S : Type} (P : Protocol S) (s : S)
    (pkt : List Nat) : RcrResult S :=
  let id := pkt.getD 3 0
  let res := parse_options pkt (rcrStep P) (Code.configureAck, [], P.peerOptionsStart s)
  match res.2 with
  | some e => ⟨false, res.1.2.2, [], some e⟩
  | none => ⟨decide (res.1.1 = Code.configureAck), res.1.2.2,
      [.packet res.1.1 id res.1.2.1], none⟩

/-- `StateMachine::send_configure_request`: build own options, then write a
Configure-Request under the freshly incremented identifier. -/
def send_configure_request {S : Type} (P : Protocol S) (m : SM S) :
    SM S × Sent :=
  let os := P.ownOptions m.proto
  let id' := (m.id + 1) % 256
  ({ m with id := id', proto := os.2 }, .packet .configureReq id' os.1)

/-- `StateMachine::send_terminate_request`. -/
def send_terminate_request {S : Type} (m : SM S) (reason : List Nat) :
    SM S × Sent :=
  let id' := (m.id + 1) % 256
  ({ m with id := id' }, .packet .terminateReq id' reason)

/-- `StateMachine::send_terminate_ack` (uses the caller-supplied identifier;
the counter is not advanced). -/
def send_terminate_ack {S : Type} (m : SM S) (id : Nat) : SM S × Sent :=
  (m, .packet .terminateAck id [])

/-- `StateMachine::send_protocol_reject`. -/
def send_protocol_reject {S : Type} (m : SM S) (pkt : List Nat) :
    SM S × Sent :=
  let id' := (m.id + 1) % 256
  ({ m with id := id' }, .packet .protocolRej id' pkt)

/-- `StateMachine::open` (named `openSM` as `open` is reserved in Lean). -/
def openSM {S : Type} (P : Protocol S) (m : SM S) : Outcome S :=
  match m.state with
  | .closed =>
      let sc := send_configure_request P m
      ⟨{ sc.1 with state := .reqSent }, [sc.2], none⟩
  | _ => ⟨m, [], none⟩

/-- `StateMachine::close` (named `closeSM` for symmetry with `openSM`). -/
def closeSM {S : Type} (m : SM S) : Outcome S :=
  ⟨{ m with state := .closed }, [], none⟩

/-- `StateMachine::handle`. -/
def handle {S : Type} (P : Protocol S) (m : SM S) (pkt : List Nat) :
    Outcome S :=
  if pkt.length < 6 then ⟨m, [], some .tooShort⟩
  else
    let code := Code.ofNat (pkt.getD 2 0)
    let id := pkt.getD 3 0
    let len := 256 * pkt.getD 4 0 + pkt.getD 5 0
    if len + 2 > pkt.length then ⟨m, [], some .tooShort⟩
    else
      let pkt2 := pkt.take (len + 2)
      match code, m.state with
      -- reply EchoReq on state Opened, ignore in all other states
      | .echoReq, .opened => ⟨m, [.raw (pkt2.set 2 Code.echoReply.toNat)], none⟩
      | .echoReq, _ => ⟨m, [], none⟩
      -- in state Closed, reply to any packet with TerminateAck
      | _, .closed =>
          ⟨(send_terminate_ack m id).1, [(send_terminate_ack m id).2], none⟩
      | .configureReq, _ =>
          let rr := received_configure_req P m.proto pkt2
          let m1 := { m with proto := rr.proto }
          match rr.err with
          | some e => ⟨m1, rr.sent, some e⟩
          | none =>
            match rr.acked, m1.state with
            | _, .closed => ⟨m1, rr.sent, none⟩  -- unreachable! in the source
            | true, .reqSent => ⟨{ m1 with state := .ackSent }, rr.sent, none⟩
            | true, .ackReceived => ⟨{ m1 with state := .opened }, rr.sent, none⟩
            | true, .ackSent => ⟨{ m1 with state := .ackSent }, rr.sent, none⟩
            | true, .opened =>
                let sc := send_configure_request P m1
                ⟨{ sc.1 with state := .ackSent }, rr.sent ++ [sc.2], none⟩
            | false, .ackSent => ⟨{ m1 with state := .reqSent }, rr.sent, none⟩
            | false, .opened =>
                let sc := send_configure_request P m1
                ⟨{ sc.1 with state := .reqSent }, rr.sent ++ [sc.2], none⟩
            | false, _ => ⟨m1, rr.sent, none⟩
      | .configureAck, .reqSent => ⟨{ m with state := .ackReceived }, [], none⟩
      | .configureAck, .ackSent => ⟨{ m with state := .opened }, [], none⟩
      | .configureAck, .ackReceived | .configureAck, .opened =>
          let sc := send_configure_request P m
          ⟨{ sc.1 with state := .reqSent }, [sc.2], none⟩
      | .configureNack, _ | .configureRej, _ =>
          let pr := parse_options pkt2
            (fun s c d =>
              (P.ownOptionNacked s c d (decide (code = Code.configureRej)), none))
            m.proto
          let m1 := { m with proto := pr.1 }
          match pr.2 with
          | some e => ⟨m1, [], some e⟩
          | none =>
            let sc := send_configure_request P m1
            match m1.state with
            | .ackSent => ⟨sc.1, [sc.2], none⟩
            | _ => ⟨{ sc.1 with state := .reqSent }, [sc.2], none⟩
      | _, _ => ⟨m, [], none⟩

/-! ### Relating the imperative option walk to a declarative option list -/

/-- Specification-side pure parse of a packet's option region (after the
6-byte header): `some opts` exactly when the TLV walk of `parse_options`
traverses it without a length error. -/
def optionsOfGo (pkt : List Nat) : Option (List (Nat × List Nat)) :=
  if pkt.length = 0 then some []
  else if pkt.length < 2 then none
  else
    let len := pkt.getD 1 0
    if pkt.length < len then none
    else if len < 2 then none
    else
      match optionsOfGo (pkt.drop len) with
      | none => none
      | some t => some ((pkt.getD 0 0, (pkt.take len).drop 2) :: t)
termination_by pkt.length
decreasing_by
  simp only [List.length_drop]
  omega

/-- Pure parse of a whole control packet's options (header included). -/
def optionsOf (pkt : List Nat) : Option (List (Nat × List Nat)) :=
  if pkt.length < 6 then none else optionsOfGo (pkt.drop 6)

/-- Folding the per-option callback over an already-parsed option list,
stopping at the first callback error. -/
def foldOpts {A : Type} (f : A → Nat → List Nat → A × Option Error) :
    A → List (Nat × List Nat) → A × Option Error
  | a, [] => (a, none)
  | a, (c, d) :: t =>
    match f a c d with
    | (a', some e) => (a', some e)
    | (a', none) => foldOpts f a' t

/-! ### Claims about the state machine -/

/-- A small concrete protocol used by witnesses: the state records the
`own_option_nacked` calls; a peer option with code 1 is Nacked with
replacement data `[9]`, code 2 is Rejected, anything else Acked. -/
def demoProto : Protocol (List (Nat × List Nat × Bool)) :=
  { ownOptions := fun s => ([1, 4, 0xaa, 0xbb], s)
    ownOptionNacked := fun s c d r => s ++ [(c, d, r)]
    peerOptionsStart := fun s => s
    peerOptionReceived := fun s c _ =>
      (if c = 1 then .nack [9] else if c = 2 then .rej else .ack, s) }

/-- The per-option badness scan exactly as claim C6 enumerates it: "an
option has declared length < 2 or extending past the packet end" (a stray
trailing fragment counts as an option extending past the end). -/
def hasBadOption (pkt : List Nat) : Bool :=
  if pkt.length = 0 then false
  else if pkt.length < 2 then true
  else
    let len := pkt.getD 1 0
    if pkt.length < len then true
    else if len < 2 then true
    else hasBadOption (pkt.drop len)
termination_by pkt.length
decreasing_by
  simp only [List.length_drop]
  omega

/-- The malformed-input condition exactly as claim C6 enumerates it: packet
shorter than 6 bytes, declared length exceeding the physical packet size,
or — for codes whose data is parsed as options — an option with declared
length < 2 or extending past the packet end. -/
def claimMalformedC6 (st : NState) (pkt : List Nat) : Prop :=
  pkt.length < 6 ∨
  256 * pkt.getD 4 0 + pkt.getD 5 0 + 2 > pkt.length ∨
  (st ≠ .closed ∧
    (Code.ofNat (pkt.getD 2 0) = .configureReq ∨
     Code.ofNat (pkt.getD 2 0) = .configureNack ∨
     Code.ofNat (pkt.getD 2 0) = .configureRej) ∧
    hasBadOption ((pkt.take (256 * pkt.getD 4 0 + pkt.getD 5 0 + 2)).drop 6)
      = true)

/-- The condition under which `handle` actually returns `TooShort`: the
claim's enumeration misses the case of a declared length below 4, for which
the sliced packet fails `parse_options`' own minimum-length re-check. -/
def amendedMalformedC6 (st : NState) (pkt : List Nat) : Prop :=
  pkt.length < 6 ∨
  256 * pkt.getD 4 0 + pkt.getD 5 0 + 2 > pkt.length ∨
  (st ≠ .closed ∧
    (Code.ofNat (pkt.getD 2 0) = .configureReq ∨
     Code.ofNat (pkt.getD 2 0) = .configureNack ∨
     Code.ofNat (pkt.getD 2 0) = .configureRej) ∧
    optionsOf (pkt.take (256 * pkt.getD 4 0 + pkt.getD 5 0 + 2)) = none)

/-- The reply code a single verdict demands. -/
def verdictCode : Verdict → Code
  | .ack => .configureAck
  | .nack _ => .configureNack
  | .rej => .configureRej

/-- The reply data for one option: the Nack's replacement data, otherwise
the option's own data (mirroring the tuple the source builds from the
verdict). -/
def verdictData (odata : List Nat) : Verdict → List Nat
  | .nack nd => nd
  | _ => odata

/-- Evaluate the peer's options in order, threading the protocol state. -/
def evalOptions {S : Type} (P : Protocol S) (s : S) :
    List (Nat × List Nat) → List (Nat × List Nat × Verdict) × S
  | [] => ([], s)
  | (c, d) :: t =>
    let vs := P.peerOptionReceived s c d
    let rest := evalOptions P vs.2 t
    ((c, d, vs.1) :: rest.1, rest.2)

/-- The worse of two reply codes under the Ack < Nack < Reject ordering. -/
def maxCode (a b : Code) : Code := if a.toNat < b.toNat then b else a

/-- The worst verdict over an evaluated option list, starting from `c0`. -/
def worstFrom (c0 : Code) (ev : List (Nat × List Nat × Verdict)) : Code :=
  ev.foldl (fun a x => maxCode a (verdictCode x.2.2)) c0

/-- One TLV-encoded option. -/
def tlv (c : Nat) (d : List Nat) : List Nat := c :: (d.length + 2) :: d

/-- The declarative reply body: exactly the options whose verdict equals the
final worst code, in order, TLV-encoded with their reply data. -/
def replyBody (w : Code) (ev : List (Nat × List Nat × Verdict)) : List Nat :=
  ((ev.filter (fun x => decide (verdictCode x.2.2 = w))).map
    (fun x => tlv x.1 (verdictData x.2.1 x.2.2))).flatten

/-! ### Lemmas and claim theorems -/

/-- A reader holding a completed, unretrieved frame consumes nothing. -/
lemma consume_complete {r : FrameReader} (buf : List Nat) (l : List Nat)
    (h : r.state = .complete) : consume r buf l = (r, buf, 0) := by
  cases l with
  | nil => rfl
  | cons b rest => simp [consume, h]

/-- A reader not holding a completed frame consumes at least one byte from a
nonempty input. -/
lemma consume_pos {r : FrameReader} (buf : List Nat) (b : Nat) (rest : List Nat)
    (h : r.state ≠ .complete) :
    1 ≤ (consume r buf (b :: rest)).2.2 := by
  cases hs : r.state <;> simp [hs] at h ⊢ <;> simp [consume, hs]

/-- Unfolding `consume` one byte at a time when not `Complete`. -/
lemma consume_cons {r : FrameReader} (buf : List Nat) (b : Nat) (rest : List Nat)
    (h : r.state ≠ .complete) :
    consume r buf (b :: rest) =
      ((consume (step r buf b).1 (step r buf b).2 rest).1,
       (consume (step r buf b).1 (step r buf b).2 rest).2.1,
       (consume (step r buf b).1 (step r buf b).2 rest).2.2 + 1) := by
  cases hs : r.state <;> simp [hs] at h ⊢ <;> simp [consume, hs]

/-- `consume` never claims more bytes than it was given. -/
lemma consume_le (r : FrameReader) (buf data : List Nat) :
    (consume r buf data).2.2 ≤ data.length := by
  induction data generalizing r buf with
  | nil => simp [consume]
  | cons b rest ih =>
    by_cases h : r.state = .complete
    · simp [consume_complete _ _ h]
    · rw [consume_cons _ _ _ h]
      simpa using ih _ _

/-- If `consume` stops early, it stopped because a frame completed. -/
lemma consume_stop (r : FrameReader) (buf data : List Nat)
    (h : (consume r buf data).2.2 < data.length) :
    (consume r buf data).1.state = .complete := by
  induction data generalizing r buf with
  | nil => simp [consume] at h
  | cons b rest ih =>
    by_cases hc : r.state = .complete
    · simp [consume_complete _ _ hc, hc]
    · rw [consume_cons _ _ _ hc] at h ⊢
      exact ih _ _ (by simpa using h)

/-- The count returned by `consume` is the index of the first unconsumed
input byte: feeding only the consumed prefix gives the same result. -/
lemma consume_take (r : FrameReader) (buf data : List Nat) :
    consume r buf (data.take (consume r buf data).2.2) = consume r buf data := by
  induction data generalizing r buf with
  | nil => simp [consume]
  | cons b rest ih =>
    by_cases hc : r.state = .complete
    · simp [consume_complete _ _ hc]
    · rw [consume_cons _ _ _ hc, List.take_succ_cons,
        consume_cons _ _ _ hc, ih]

/-- **C3**: whenever the frame reader is in the `Complete` state (a completed
frame not yet retrieved), `consume` consumes zero bytes and leaves the reader
state and destination buffer unchanged; within a single `consume` call, the
moment the state becomes `Complete` no further input bytes are consumed, and
the returned count is the index of the first unconsumed input byte (feeding
just the consumed prefix reproduces the result); this persists until
`receive` is called. -/
theorem C3_consume_backpressure (r : FrameReader) (buf data : List Nat) :
    (r.state = .complete → consume r buf data = (r, buf, 0)) ∧
    (consume r buf data).2.2 ≤ data.length ∧
    ((consume r buf data).2.2 < data.length →
      (consume r buf data).1.state = .complete) ∧
    consume r buf (data.take (consume r buf data).2.2) = consume r buf data :=
  ⟨fun h => consume_complete buf data h, consume_le r buf data,
   consume_stop r buf data, consume_take r buf data⟩

/-- Witness for C3 at a concrete completed reader. -/
theorem C3_witness :
    consume ⟨.complete, false, 5⟩ [1, 2, 3, 4, 5] [9, 9] =
      (⟨.complete, false, 5⟩, [1, 2, 3, 4, 5], 0) ∧
    (consume ⟨.complete, false, 5⟩ [1, 2, 3, 4, 5] [9, 9]).1.state = .complete := by
  have h := C3_consume_backpressure ⟨.complete, false, 5⟩ [1, 2, 3, 4, 5] [9, 9]
  exact ⟨h.1 rfl, h.2.2.1 (by decide)⟩

lemma receiveFn_of_complete {r : FrameReader} (h : r.state = .complete) :
    receiveFn r = (some (1, r.len - 2), { r with state := .address, len := 0 }) := by
  simp [receiveFn, h]

lemma receiveFn_of_not_complete {r : FrameReader} (h : r.state ≠ .complete) :
    receiveFn r = (none, r) := by
  cases hs : r.state <;> simp [receiveFn, hs] <;> simp [hs] at h

lemma receiveFn_fst_some {r : FrameReader} {p : Nat × Nat}
    (h : (receiveFn r).1 = some p) :
    r.state = .complete ∧ (receiveFn r).2.state = .address := by
  by_cases hc : r.state = .complete
  · exact ⟨hc, by rw [receiveFn_of_complete hc]⟩
  · rw [receiveFn_of_not_complete hc] at h
    simp at h

/-- `runBytes` splits over concatenation of the input stream. -/
lemma runBytes_append (r : FrameReader) (buf xs ys : List Nat) :
    runBytes r buf (xs ++ ys) =
      ((runBytes (runBytes r buf xs).1 (runBytes r buf xs).2.1 ys).1,
       (runBytes (runBytes r buf xs).1 (runBytes r buf xs).2.1 ys).2.1,
       (runBytes r buf xs).2.2 ++
         (runBytes (runBytes r buf xs).1 (runBytes r buf xs).2.1 ys).2.2) := by
  induction xs generalizing r buf with
  | nil => simp [runBytes]
  | cons b rest ih =>
    by_cases h1 : (step r buf b).1.state = .complete
    · simp only [List.cons_append, runBytes, receiveFn_of_complete h1]
      simp [ih]
    · simp only [List.cons_append, runBytes, receiveFn_of_not_complete h1]
      simp [ih]

/-- The eagerly-drained runner never ends holding a completed frame. -/
lemma runBytes_not_complete (buf data : List Nat) :
    ∀ r : FrameReader, r.state ≠ .complete →
      (runBytes r buf data).1.state ≠ .complete := by
  induction data generalizing buf with
  | nil =>
    intro r h
    simpa [runBytes] using h
  | cons b rest ih =>
    intro r h
    by_cases h1 : (step r buf b).1.state = .complete
    · simp only [runBytes, receiveFn_of_complete h1]
      exact ih _ _ (by simp)
    · simp only [runBytes, receiveFn_of_not_complete h1]
      exact ih _ _ h1

/-- If `consume` ends without a completed frame, no frame completed along the
way and `runBytes` retrieves nothing on that input. -/
lemma runBytes_consume_no_frame (buf data : List Nat) :
    ∀ r : FrameReader, r.state ≠ .complete →
      (consume r buf data).1.state ≠ .complete →
      runBytes r buf data = ((consume r buf data).1, (consume r buf data).2.1, []) := by
  induction data generalizing buf with
  | nil =>
    intro r h hf
    simp [runBytes, consume]
  | cons b rest ih =>
    intro r h hf
    rw [consume_cons _ _ _ h] at hf ⊢
    by_cases h1 : (step r buf b).1.state = .complete
    · exfalso
      apply hf
      simp only [consume_complete _ _ h1]
      exact h1
    · simp only [runBytes, receiveFn_of_not_complete h1]
      simpa using ih _ _ h1 (by simpa using hf)

/-- If `consume` stops with a completed frame, `runBytes` retrieves that
frame's payload and then continues on the unconsumed suffix from the drained
reader. -/
lemma runBytes_consume_frame (buf data : List Nat) :
    ∀ r : FrameReader, r.state ≠ .complete →
      (consume r buf data).1.state = .complete →
      runBytes r buf data =
        ((runBytes ((receiveFn (consume r buf data).1).2) ((consume r buf data).2.1)
            (data.drop (consume r buf data).2.2)).1,
         (runBytes ((receiveFn (consume r buf data).1).2) ((consume r buf data).2.1)
            (data.drop (consume r buf data).2.2)).2.1,
         extractRange ((consume r buf data).2.1) 1 ((consume r buf data).1.len - 2) ::
           (runBytes ((receiveFn (consume r buf data).1).2) ((consume r buf data).2.1)
              (data.drop (consume r buf data).2.2)).2.2) := by
  induction data generalizing buf with
  | nil =>
    intro r h hf
    simp [consume] at hf
    exact absurd hf h
  | cons b rest ih =>
    intro r h hf
    rw [consume_cons _ _ _ h] at hf ⊢
    by_cases h1 : (step r buf b).1.state = .complete
    · simp only [consume_complete _ _ h1] at hf ⊢
      simp only [runBytes, receiveFn_of_complete h1]
      simp [List.drop]
    · simp only [runBytes, receiveFn_of_not_complete h1]
      simp only [List.drop_succ_cons]
      simpa using ih _ _ h1 (by simpa using hf)

/-- The consume/receive driver loop on one chunk retrieves exactly the frames
the byte-at-a-time reference runner retrieves. -/
lemma runChunk_eq_runBytes :
    ∀ (n : Nat) (chunk : List Nat), chunk.length ≤ n →
      ∀ (r : FrameReader) (buf : List Nat), r.state ≠ .complete →
        runChunk r buf chunk = runBytes r buf chunk := by
  intro n
  induction n with
  | zero =>
    intro chunk hle r buf h
    have hc : chunk = [] := List.length_eq_zero.mp (Nat.le_zero.mp hle)
    subst hc
    rw [runChunk]
    simp [consume, receiveFn_of_not_complete h, runBytes]
  | succ n ih =>
    intro chunk hle r buf h
    rw [runChunk]
    by_cases hf : (consume r buf chunk).1.state = .complete
    · simp only [receiveFn_of_complete hf]
      by_cases hend : chunk.length ≤ (consume r buf chunk).2.2
      · have hdrop : chunk.drop (consume r buf chunk).2.2 = [] :=
          List.drop_eq_nil_of_le hend
        rw [runBytes_consume_frame _ _ _ h hf, hdrop]
        simp [runBytes, extractRange, hend, receiveFn_of_complete hf]
      · have h1 : 1 ≤ (consume r buf chunk).2.2 := by
          cases hc : chunk with
          | nil => subst hc; simp at hend
          | cons c cs => subst hc; exact consume_pos _ _ _ h
        have hlen : (chunk.drop (consume r buf chunk).2.2).length ≤ n := by
          simp only [List.length_drop]
          omega
        rw [runBytes_consume_frame _ _ _ h hf]
        simp only [hend]
        rw [ih _ hlen _ _ (by simp [receiveFn_of_complete hf])]
        simp [receiveFn_of_complete hf, extractRange]
    · simp only [receiveFn_of_not_complete hf]
      rw [runBytes_consume_no_frame _ _ _ h hf]

/-- Splitting the stream into chunks and driving each through the
consume/receive loop retrieves the same frames as the byte-at-a-time
reference runner on the concatenated stream. -/
lemma runChunks_eq_join (cs : List (List Nat)) :
    ∀ (r : FrameReader) (buf : List Nat), r.state ≠ .complete →
      runChunks r buf cs = runBytes r buf cs.flatten := by
  induction cs with
  | nil =>
    intro r buf h
    simp [runChunks, runBytes]
  | cons c cs ih =>
    intro r buf h
    simp only [runChunks, List.flatten_cons]
    rw [runChunk_eq_runBytes c.length c le_rfl _ _ h,
      ih _ _ (runBytes_not_complete _ _ _ h), runBytes_append]

lemma flatten_singletons (l : List Nat) :
    (l.map (fun b => [b])).flatten = l := by
  induction l with
  | nil => rfl
  | cons b t ih => simp [ih]

/-- **C4**: for every byte stream and every partition of it into chunks fed
successively to `consume` (with `receive` called to drain each frame as it
completes and unconsumed bytes resubmitted), the sequence of payloads
retrieved via `receive` is the same as feeding the whole stream at once; in
particular one byte at a time and all at once agree. -/
theorem C4_chunking_independence (r : FrameReader) (buf stream : List Nat)
    (chunks : List (List Nat)) (h : r.state ≠ .complete) :
    (runChunks r buf chunks).2.2 = (runChunk r buf chunks.flatten).2.2 ∧
    (runChunks r buf (stream.map (fun b => [b]))).2.2 =
      (runChunk r buf stream).2.2 := by
  constructor
  · rw [runChunks_eq_join _ _ _ h,
      runChunk_eq_runBytes chunks.flatten.length _ le_rfl _ _ h]
  · rw [runChunks_eq_join _ _ _ h,
      runChunk_eq_runBytes stream.length _ le_rfl _ _ h, flatten_singletons]

/-- Witness for C4: a concrete valid frame split across three chunks yields
the same single payload as the unsplit stream. -/
theorem C4_witness :
    (runChunks FrameReader.new [0, 0, 0, 0, 0, 0]
        [[0x7e, 0xff], [0x03, 0xc0], [0x21, 0x49, 0x2c, 0x7e]]).2.2 =
      (runChunk FrameReader.new [0, 0, 0, 0, 0, 0]
        [0x7e, 0xff, 0x03, 0xc0, 0x21, 0x49, 0x2c, 0x7e]).2.2 ∧
    (runChunks FrameReader.new [0, 0, 0, 0, 0, 0]
        ([0x7e, 0xff, 0x03, 0xc0, 0x21, 0x49, 0x2c, 0x7e].map (fun b => [b]))).2.2 =
      (runChunk FrameReader.new [0, 0, 0, 0, 0, 0]
        [0x7e, 0xff, 0x03, 0xc0, 0x21, 0x49, 0x2c, 0x7e]).2.2 := by
  have h := C4_chunking_independence FrameReader.new [0, 0, 0, 0, 0, 0]
    [0x7e, 0xff, 0x03, 0xc0, 0x21, 0x49, 0x2c, 0x7e]
    [[0x7e, 0xff], [0x03, 0xc0], [0x21, 0x49, 0x2c, 0x7e]] (by decide)
  exact ⟨h.1, h.2⟩

/-- **C2, counterexample**: the claim says the byte following an `0x7D` is
stored XORed with `0x20` with the escape flag cleared (equivalently, that
only an *unescaped* `0x7E` ends the frame).  In the code the `0x7E` arm is
matched before the escape flag is consulted: with the escape flag pending, a
raw `0x7E` still ends the frame scan — nothing is stored, the flag stays
set, and the reader leaves `Data` — instead of `0x5E` being appended. -/
theorem C2_counterexample :
    consume ⟨.data, true, 1⟩ [3, 0] [0x7e] = (⟨.address, true, 1⟩, [3, 0], 1) ∧
    ¬ consume ⟨.data, true, 1⟩ [3, 0] [0x7e] = (⟨.data, false, 2⟩, [3, 0x5e], 1) := by
  constructor <;> decide

/-- **C2, amended**: in the `Data` state, `0x7D` sets the pending-escape flag
and is discarded; a following byte other than `0x7E`/`0x7D` is stored XORed
with `0x20` with the flag cleared; a `0x7E` — escaped or not — ends the
frame, which becomes `Complete` (the only state from which `receive` yields
a payload) iff the accumulated length is ≥ 3, the first stored byte is
`0x03`, and `crc16 0x00FF` over the stored bytes equals `0xF0B8`; a rejected
frame end returns scanning to `Address`. -/
theorem C2_data_state_rules (r : FrameReader) (buf : List Nat) (b : Nat)
    (hs : r.state = .data) :
    (b = 0x7d → step r buf b = ({ r with escape := true }, buf)) ∧
    (b ≠ 0x7e → b ≠ 0x7d → r.len ≠ USIZE_MAX → r.len < buf.length →
      step r buf b = ({ r with len := r.len + 1, escape := false },
        buf.set r.len (if r.escape then b ^^^ 0x20 else b))) ∧
    (b = 0x7e →
      ((step r buf b).1.state = .complete ↔
        (3 ≤ r.len ∧ buf.getD 0 0 = 0x03 ∧
          crc16 0x00FF (buf.take r.len) = 0xf0b8)) ∧
      (¬ (3 ≤ r.len ∧ buf.getD 0 0 = 0x03 ∧
          crc16 0x00FF (buf.take r.len) = 0xf0b8) →
        (step r buf b).1.state = .address) ∧
      (step r buf b).1.escape = r.escape ∧ (step r buf b).2 = buf) ∧
    (∀ r' : FrameReader, (receiveFn r').1 ≠ none → r'.state = .complete) := by
  refine ⟨?_, ?_, ?_, ?_⟩
  · intro hb
    subst hb
    simp [step, hs]
  · intro hb1 hb2 hmax hlen
    simp only [step, hs, if_neg hb1, if_neg hb2]
    rw [if_neg]
    omega
  · intro hb
    subst hb
    by_cases hok : 3 ≤ r.len ∧ buf.getD 0 0 = 0x03 ∧
        crc16 0x00FF (buf.take r.len) = 0xf0b8
    · simp [step, hs, hok]
    · simp [step, hs, hok]
  · intro r' hr
    by_cases hc : r'.state = .complete
    · exact hc
    · rw [receiveFn_of_not_complete hc] at hr
      simp at hr

/-- Witness for the amended C2 at concrete inputs: an escaped ordinary byte
is stored XORed with `0x20`, `0x7D` arms the flag, and a `0x7E` closing an
invalid frame returns the reader to `Address`. -/
theorem C2_witness :
    step ⟨.data, true, 1⟩ [3, 0, 0] 0x41 = (⟨.data, false, 2⟩, [3, 0x61, 0]) ∧
    step ⟨.data, false, 0⟩ [0, 0, 0] 0x7d = (⟨.data, true, 0⟩, [0, 0, 0]) ∧
    (step ⟨.data, false, 1⟩ [3, 0, 0] 0x7e).1.state = .address := by
  have h1 := C2_data_state_rules ⟨.data, true, 1⟩ [3, 0, 0] 0x41 rfl
  have h2 := C2_data_state_rules ⟨.data, false, 0⟩ [0, 0, 0] 0x7d rfl
  have h3 := C2_data_state_rules ⟨.data, false, 1⟩ [3, 0, 0] 0x7e rfl
  refine ⟨?_, h2.1 rfl, (h3.2.2.1 rfl).2.1 (by decide)⟩
  have h4 := h1.2.1 (by decide) (by decide) (by decide) (by decide)
  simpa using h4

/-- **C5**: the claim (with the spec) says a frame failing validation at the
closing flag is discarded in full, the accumulated count restarting at zero.
The code only returns to `Address` and keeps `self.len`: after the invalid
frame `7E FF 03 00 00 7E` the count is still 3, and the discarded bytes
`00 00` are exactly the payload that `receive` later yields for the next
"accepted" frame — contradicting the claim's discard-in-full guarantee. -/
theorem C5_reject_keeps_len :
    (consume FrameReader.new [0, 0, 0, 0, 0, 0, 0, 0]
        [0x7e, 0xff, 0x03, 0x00, 0x00, 0x7e]).1 = ⟨.address, false, 3⟩ ∧
    crc16 0x00FF [0x03, 0x00, 0x00] ≠ 0xf0b8 ∧
    (runChunk FrameReader.new [0, 0, 0, 0, 0, 0, 0, 0]
        [0x7e, 0xff, 0x03, 0x00, 0x00, 0x7e, 0xff, 0x68, 0xd6, 0x7e]).2.2 =
      [[0x00, 0x00]] := by
  refine ⟨by decide, by decide, ?_⟩
  rw [runChunk_eq_runBytes 10 _ (by decide) _ _ (by decide)]
  decide

lemma parseOptionsGo_eq_foldOpts {A : Type}
    (f : A → Nat → List Nat → A × Option Error) :
    ∀ (n : Nat) (pkt : List Nat), pkt.length ≤ n →
      ∀ (a : A) (opts : List (Nat × List Nat)), optionsOfGo pkt = some opts →
        parseOptionsGo f a pkt = foldOpts f a opts := by
  intro n
  induction n with
  | zero =>
    intro pkt hle a opts hopt
    have hpe : pkt = [] := List.length_eq_zero.mp (Nat.le_zero.mp hle)
    subst hpe
    rw [optionsOfGo] at hopt
    simp at hopt
    subst hopt
    rw [parseOptionsGo]
    rfl
  | succ n ih =>
    intro pkt hle a opts hopt
    rw [optionsOfGo] at hopt
    rw [parseOptionsGo]
    by_cases h0 : pkt.length = 0
    · rw [if_pos h0] at hopt ⊢
      simp only [Option.some.injEq] at hopt
      subst hopt
      rfl
    · rw [if_neg h0] at hopt ⊢
      by_cases h2 : pkt.length < 2
      · rw [if_pos h2] at hopt
        exact absurd hopt (by simp)
      · rw [if_neg h2] at hopt ⊢
        by_cases h3 : pkt.length < pkt.getD 1 0
        · rw [if_pos h3] at hopt
          exact absurd hopt (by simp)
        · rw [if_neg h3] at hopt ⊢
          by_cases h4 : pkt.getD 1 0 < 2
          · rw [if_pos h4] at hopt
            exact absurd hopt (by simp)
          · rw [if_neg h4] at hopt ⊢
            cases hrec : optionsOfGo (pkt.drop (pkt.getD 1 0)) with
            | none =>
              rw [hrec] at hopt
              exact absurd hopt (by simp)
            | some t =>
              rw [hrec] at hopt
              simp only [Option.some.injEq] at hopt
              subst hopt
              cases hf : f a (pkt.getD 0 0) ((pkt.take (pkt.getD 1 0)).drop 2) with
              | mk a' e =>
                cases e with
                | none =>
                  simp only [foldOpts, hf]
                  refine ih (pkt.drop (pkt.getD 1 0)) ?_ a' t hrec
                  simp only [List.length_drop]
                  omega
                | some er => simp only [foldOpts, hf]

/-- When the option region is malformed and the callback itself never fails
(on option data that can come from a byte packet), `parse_options`'s loop
ends in `TooShort`. -/
lemma parseOptionsGo_none {A : Type}
    (f : A → Nat → List Nat → A × Option Error)
    (hf : ∀ (a : A) (c : Nat) (d : List Nat), d.length ≤ 253 → (f a c d).2 = none) :
    ∀ (n : Nat) (pkt : List Nat), pkt.length ≤ n → (∀ b ∈ pkt, b < 256) →
      optionsOfGo pkt = none →
      ∀ (a : A), (parseOptionsGo f a pkt).2 = some .tooShort := by
  intro n
  induction n with
  | zero =>
    intro pkt hle hbytes hopt a
    have hpe : pkt = [] := List.length_eq_zero.mp (Nat.le_zero.mp hle)
    subst hpe
    rw [optionsOfGo] at hopt
    simp at hopt
  | succ n ih =>
    intro pkt hle hbytes hopt a
    rw [optionsOfGo] at hopt
    rw [parseOptionsGo]
    by_cases h0 : pkt.length = 0
    · rw [if_pos h0] at hopt
      exact absurd hopt (by simp)
    · rw [if_neg h0] at hopt ⊢
      by_cases h2 : pkt.length < 2
      · rw [if_pos h2]
      · rw [if_neg h2] at hopt ⊢
        by_cases h3 : pkt.length < pkt.getD 1 0
        · rw [if_pos h3]
        · rw [if_neg h3] at hopt ⊢
          by_cases h4 : pkt.getD 1 0 < 2
          · rw [if_pos h4]
          · rw [if_neg h4] at hopt ⊢
            have hlenb : pkt.getD 1 0 < 256 := by
              have h1m : (1 : Nat) < pkt.length := by omega
              have := hbytes (pkt.getD 1 0) ?_
              · exact this
              · rw [List.getD_eq_getElem?_getD]
                rw [List.getElem?_eq_getElem h1m]
                simp
            have hdl : ((pkt.take (pkt.getD 1 0)).drop 2).length ≤ 253 := by
              simp only [List.length_drop, List.length_take]
              omega
            cases hrec : optionsOfGo (pkt.drop (pkt.getD 1 0)) with
            | none =>
              cases hfv : f a (pkt.getD 0 0) ((pkt.take (pkt.getD 1 0)).drop 2) with
              | mk a' e =>
                have he : e = none := by
                  have := hf a (pkt.getD 0 0) ((pkt.take (pkt.getD 1 0)).drop 2) hdl
                  rw [hfv] at this
                  exact this
                subst he
                simp only [hfv]
                refine ih (pkt.drop (pkt.getD 1 0)) ?_ ?_ hrec a'
                · simp only [List.length_drop]
                  omega
                · intro b hb
                  exact hbytes b (List.mem_of_mem_drop hb)
            | some t =>
              rw [hrec] at hopt
              exact absurd hopt (by simp)

/-- Folding a never-failing callback is an ordinary `foldl`. -/
lemma foldOpts_pure {A : Type} (g : A → Nat → List Nat → A) :
    ∀ (opts : List (Nat × List Nat)) (a : A),
      foldOpts (fun a c d => (g a c d, none)) a opts =
        (opts.foldl (fun a x => g a x.1 x.2) a, none) := by
  intro opts
  induction opts with
  | nil => intro a; rfl
  | cons x t ih =>
    intro a
    cases x with
    | mk c d => simp [foldOpts, ih]

lemma parse_options_eq_foldOpts {A : Type}
    (f : A → Nat → List Nat → A × Option Error) (pkt : List Nat)
    (opts : List (Nat × List Nat)) (h : optionsOf pkt = some opts) (a : A) :
    parse_options pkt f a = foldOpts f a opts := by
  unfold optionsOf at h
  unfold parse_options
  by_cases h6 : pkt.length < 6
  · rw [if_pos h6] at h
    exact absurd h (by simp)
  · rw [if_neg h6] at h ⊢
    exact parseOptionsGo_eq_foldOpts f (pkt.drop 6).length _ le_rfl _ _ h

lemma parse_options_none {A : Type}
    (f : A → Nat → List Nat → A × Option Error)
    (hf : ∀ (a : A) (c : Nat) (d : List Nat), d.length ≤ 253 → (f a c d).2 = none)
    (pkt : List Nat) (hbytes : ∀ b ∈ pkt, b < 256)
    (h : optionsOf pkt = none) (a : A) :
    (parse_options pkt f a).2 = some .tooShort := by
  unfold optionsOf at h
  unfold parse_options
  by_cases h6 : pkt.length < 6
  · simp [h6]
  · rw [if_neg h6] at h ⊢
    refine parseOptionsGo_none f hf (pkt.drop 6).length _ le_rfl ?_ h a
    intro b hb
    exact hbytes b (List.mem_of_mem_drop hb)

/-- **C10**: for every starting state, `close` sets the negotiation state to
Closed, writes nothing to the frame writer, leaves the identifier counter
(and the protocol state) unchanged, and returns success. -/
theorem C10_close {S : Type} (m : SM S) :
    (closeSM m).machine.state = .closed ∧
    (closeSM m).sent = [] ∧
    (closeSM m).machine.id = m.id ∧
    (closeSM m).machine.proto = m.proto ∧
    (closeSM m).err = none :=
  ⟨rfl, rfl, rfl, rfl, rfl⟩

/-- **C9**: `open` on a freshly constructed machine (state Closed, counter 1)
sends exactly one Configure-Request with pre-incremented identifier 2 whose
body is the protocol's own options, and moves to ReqSent; every originated
Configure-Request or Terminate-Request advances the counter by one modulo
256 (and sets nothing else back). -/
theorem C9_open_fresh {S : Type} (P : Protocol S) (s : S) :
    openSM P (SM.new s) =
      ⟨⟨2, .reqSent, (P.ownOptions s).2⟩,
       [.packet .configureReq 2 (P.ownOptions s).1], none⟩ ∧
    (∀ m : SM S, (send_configure_request P m).1.id = (m.id + 1) % 256 ∧
      (send_configure_request P m).2 =
        .packet .configureReq ((m.id + 1) % 256) (P.ownOptions m.proto).1 ∧
      (send_configure_request P m).1.state = m.state) ∧
    (∀ (m : SM S) (reason : List Nat),
      (send_terminate_request m reason).1.id = (m.id + 1) % 256 ∧
      (send_terminate_request m reason).2 =
        .packet .terminateReq ((m.id + 1) % 256) reason) := by
  refine ⟨?_, fun m => ⟨rfl, rfl, rfl⟩, fun m reason => ⟨rfl, rfl⟩⟩
  simp [openSM, SM.new, send_configure_request]

/-- **C7**: in state Closed, `handle` on a well-formed packet with code other
than Echo-Request sends exactly one Terminate-Ack under the incoming
identifier (counter untouched) and stays Closed; an Echo-Request in any
state other than Opened sends nothing and changes nothing. -/
theorem C7_closed_behaviour {S : Type} (P : Protocol S) (m : SM S)
    (pkt : List Nat) (h6 : 6 ≤ pkt.length)
    (hlen : 256 * pkt.getD 4 0 + pkt.getD 5 0 + 2 ≤ pkt.length) :
    (m.state = .closed → Code.ofNat (pkt.getD 2 0) ≠ .echoReq →
      handle P m pkt = ⟨m, [.packet .terminateAck (pkt.getD 3 0) []], none⟩) ∧
    (Code.ofNat (pkt.getD 2 0) = .echoReq → m.state ≠ .opened →
      handle P m pkt = ⟨m, [], none⟩) := by
  have h1 : ¬ pkt.length < 6 := by omega
  have h2 : ¬ 256 * pkt.getD 4 0 + pkt.getD 5 0 + 2 > pkt.length := by omega
  constructor
  · intro hcl hne
    simp only [handle, if_neg h1, if_neg h2]
    rw [hcl]
    cases hcode : Code.ofNat (pkt.getD 2 0) with
    | echoReq => exact absurd hcode hne
    | unknown v => simp [send_terminate_ack]
    | _ => simp [send_terminate_ack]
  · intro hcode hno
    simp only [handle, if_neg h1, if_neg h2]
    rw [hcode]
    cases hstate : m.state with
    | opened => exact absurd hstate hno
    | _ => simp

/-- Witness for C7: a Configure-Ack arriving in Closed gets a Terminate-Ack
with its identifier; an Echo-Request in Closed is ignored. -/
theorem C7_witness :
    handle demoProto (SM.new []) [0xc0, 0x21, 2, 7, 0, 4] =
      ⟨SM.new [], [.packet .terminateAck 7 []], none⟩ ∧
    handle demoProto (SM.new []) [0xc0, 0x21, 9, 7, 0, 4] =
      ⟨SM.new [], [], none⟩ := by
  have h1 := C7_closed_behaviour demoProto (SM.new [])
    [0xc0, 0x21, 2, 7, 0, 4] (by decide) (by decide)
  have h2 := C7_closed_behaviour demoProto (SM.new [])
    [0xc0, 0x21, 9, 7, 0, 4] (by decide) (by decide)
  exact ⟨h1.1 rfl (by decide), h2.2 (by decide) (by decide)⟩

/-- **C8**: a well-formed Configure-Nack (code 3) or Configure-Reject
(code 4) handled in any state other than Closed invokes `own_option_nacked`
once per option of the packet, in order, with the reject flag true exactly
for Configure-Reject (the fold below), then sends exactly one new
Configure-Request; the state becomes ReqSent except from AckSent, which is
preserved. -/
theorem C8_nack_rej {S : Type} (P : Protocol S) (m : SM S) (pkt : List Nat)
    (opts : List (Nat × List Nat)) (h6 : 6 ≤ pkt.length)
    (hlen : 256 * pkt.getD 4 0 + pkt.getD 5 0 + 2 ≤ pkt.length)
    (hcode : pkt.getD 2 0 = 3 ∨ pkt.getD 2 0 = 4)
    (hst : m.state ≠ .closed)
    (hopts : optionsOf (pkt.take (256 * pkt.getD 4 0 + pkt.getD 5 0 + 2)) =
      some opts) :
    handle P m pkt =
      ⟨⟨(m.id + 1) % 256, if m.state = .ackSent then .ackSent else .reqSent,
         (P.ownOptions (opts.foldl
            (fun s x => P.ownOptionNacked s x.1 x.2 (decide (pkt.getD 2 0 = 4)))
            m.proto)).2⟩,
       [.packet .configureReq ((m.id + 1) % 256)
          (P.ownOptions (opts.foldl
             (fun s x => P.ownOptionNacked s x.1 x.2 (decide (pkt.getD 2 0 = 4)))
             m.proto)).1],
       none⟩ := by
  have h1 : ¬ pkt.length < 6 := by omega
  have h2 : ¬ 256 * pkt.getD 4 0 + pkt.getD 5 0 + 2 > pkt.length := by omega
  have hparse : ∀ isr : Bool,
      parse_options (pkt.take (256 * pkt.getD 4 0 + pkt.getD 5 0 + 2))
        (fun s c d => (P.ownOptionNacked s c d isr, none)) m.proto =
      (opts.foldl (fun s x => P.ownOptionNacked s x.1 x.2 isr) m.proto, none) := by
    intro isr
    rw [parse_options_eq_foldOpts _ _ _ hopts]
    exact foldOpts_pure _ opts m.proto
  rcases hcode with hc | hc
  · simp only [handle, if_neg h1, if_neg h2, hc]
    have e1 : Code.ofNat 3 = Code.configureNack := rfl
    rw [e1]
    cases hstate : m.state with
    | closed => exact absurd hstate hst
    | _ =>
        simp only [hparse, send_configure_request]
        simp [hstate]
  · simp only [handle, if_neg h1, if_neg h2, hc]
    have e1 : Code.ofNat 4 = Code.configureRej := rfl
    rw [e1]
    cases hstate : m.state with
    | closed => exact absurd hstate hst
    | _ =>
        simp only [hparse, send_configure_request]
        simp [hstate]

/-- Witness for C8: a Configure-Nack carrying options (1,[7]) and (2,[])
arriving in ReqSent records both `own_option_nacked` calls in order with the
reject flag false and resends a Configure-Request with identifier 2. -/
theorem C8_witness :
    handle demoProto ⟨1, .reqSent, []⟩ [0xc0, 0x21, 3, 5, 0, 9, 1, 3, 7, 2, 2] =
      ⟨⟨2, .reqSent, [(1, [7], false), (2, [], false)]⟩,
       [.packet .configureReq 2 [1, 4, 0xaa, 0xbb]], none⟩ := by
  have h := C8_nack_rej demoProto ⟨1, .reqSent, []⟩
    [0xc0, 0x21, 3, 5, 0, 9, 1, 3, 7, 2, 2] [(1, [7]), (2, [])]
    (by decide) (by decide) (Or.inl (by decide)) (by decide)
    (by simp [optionsOf, optionsOfGo])
  simpa [demoProto] using h

/-- Parsed option data always fits in a TLV whose length field is one byte. -/
lemma optionsOfGo_data_le :
    ∀ (n : Nat) (pkt : List Nat), pkt.length ≤ n → (∀ b ∈ pkt, b < 256) →
      ∀ (opts : List (Nat × List Nat)), optionsOfGo pkt = some opts →
        ∀ x ∈ opts, x.2.length ≤ 253 := by
  intro n
  induction n with
  | zero =>
    intro pkt hle hbytes opts hopt x hx
    have hpe : pkt = [] := List.length_eq_zero.mp (Nat.le_zero.mp hle)
    subst hpe
    rw [optionsOfGo] at hopt
    simp at hopt
    subst hopt
    simp at hx
  | succ n ih =>
    intro pkt hle hbytes opts hopt x hx
    rw [optionsOfGo] at hopt
    by_cases h0 : pkt.length = 0
    · rw [if_pos h0] at hopt
      simp only [Option.some.injEq] at hopt
      subst hopt
      simp at hx
    · rw [if_neg h0] at hopt
      by_cases h2 : pkt.length < 2
      · rw [if_pos h2] at hopt
        exact absurd hopt (by simp)
      · rw [if_neg h2] at hopt
        by_cases h3 : pkt.length < pkt.getD 1 0
        · rw [if_pos h3] at hopt
          exact absurd hopt (by simp)
        · rw [if_neg h3] at hopt
          by_cases h4 : pkt.getD 1 0 < 2
          · rw [if_pos h4] at hopt
            exact absurd hopt (by simp)
          · rw [if_neg h4] at hopt
            cases hrec : optionsOfGo (pkt.drop (pkt.getD 1 0)) with
            | none =>
              rw [hrec] at hopt
              exact absurd hopt (by simp)
            | some t =>
              rw [hrec] at hopt
              simp only [Option.some.injEq] at hopt
              subst hopt
              have hlenb : pkt.getD 1 0 < 256 := by
                have h1m : (1 : Nat) < pkt.length := by omega
                have := hbytes (pkt.getD 1 0) ?_
                · exact this
                · rw [List.getD_eq_getElem?_getD]
                  rw [List.getElem?_eq_getElem h1m]
                  simp
              rcases List.mem_cons.mp hx with hx1 | hx2
              · subst hx1
                simp only [List.length_drop, List.length_take]
                omega
              · refine ih (pkt.drop (pkt.getD 1 0)) ?_ ?_ t hrec x hx2
                · simp only [List.length_drop]
                  omega
                · intro b hb
                  exact hbytes b (List.mem_of_mem_drop hb)

/-- Options parsed from a byte packet have data short enough for
`append_option`. -/
lemma optionsOf_data_le (pkt : List Nat) (hbytes : ∀ b ∈ pkt, b < 256)
    (opts : List (Nat × List Nat)) (hopt : optionsOf pkt = some opts) :
    ∀ x ∈ opts, x.2.length ≤ 253 := by
  unfold optionsOf at hopt
  by_cases h6 : pkt.length < 6
  · rw [if_pos h6] at hopt
    exact absurd hopt (by simp)
  · rw [if_neg h6] at hopt
    refine optionsOfGo_data_le (pkt.drop 6).length _ le_rfl ?_ opts hopt
    intro b hb
    exact hbytes b (List.mem_of_mem_drop hb)

/-- A callback that does not fail on any of the listed options makes the
fold error-free. -/
lemma foldOpts_no_error {A : Type}
    (f : A → Nat → List Nat → A × Option Error) :
    ∀ (opts : List (Nat × List Nat)) (a : A),
      (∀ (a' : A) (x : Nat × List Nat), x ∈ opts → (f a' x.1 x.2).2 = none) →
      (foldOpts f a opts).2 = none := by
  intro opts
  induction opts with
  | nil => intro a _; rfl
  | cons x t ih =>
    intro a hok
    cases x with
    | mk c d =>
      cases hfv : f a c d with
      | mk a' e =>
        have he : e = none := by
          have := hok a (c, d) (List.mem_cons_self _ _)
          rw [hfv] at this
          exact this
        subst he
        simp only [foldOpts, hfv]
        exact ih a' (fun a' x hx => hok a' x (List.mem_cons_of_mem _ hx))

/-- Under the side conditions of a real deployment (byte-valued packets,
Nack replacement data that fits an option), the per-option closure of
`received_configure_req` never fails. -/
lemma rcrStep_no_error {S : Type} (P : Protocol S)
    (hnack : ∀ (s : S) (c : Nat) (d nd : List Nat) (s' : S),
      P.peerOptionReceived s c d = (.nack nd, s') → nd.length ≤ 253)
    (acc : Code × List Nat × S) (c : Nat) (d : List Nat)
    (hd : d.length ≤ 253) : (rcrStep P acc c d).2 = none := by
  unfold rcrStep
  cases hv : P.peerOptionReceived acc.2.2 c d with
  | mk v s' =>
    cases v with
    | ack =>
      simp only [appendOption, show ¬ (d.length + 2 > 255) by omega]
      split <;> split <;> simp_all
    | rej =>
      simp only [appendOption, show ¬ (d.length + 2 > 255) by omega]
      split <;> split <;> simp_all
    | nack nd =>
      have hnd : nd.length ≤ 253 := hnack _ _ _ _ _ hv
      simp only [appendOption, show ¬ (nd.length + 2 > 255) by omega]
      split <;> split <;> simp_all

/-- **C6, counterexample**: a 6-byte Configure-Nack with declared length 2
(less than the 4-byte header) in state ReqSent.  `handle` returns `TooShort`
(from `parse_options`' re-check of the sliced packet length), yet none of
the claim's enumerated malformation conditions holds: the packet is 6 bytes,
the declared length 2 does not exceed the physical size, and the (empty)
option region contains no bad option. -/
theorem C6_counterexample :
    (handle demoProto ⟨1, .reqSent, []⟩ [0, 0, 3, 1, 0, 2]).err =
      some .tooShort ∧
    ¬ claimMalformedC6 NState.reqSent [0, 0, 3, 1, 0, 2] := by
  constructor
  · decide
  · simp [claimMalformedC6, hasBadOption, Code.ofNat]

/-- **C6, amended**: `handle` returns `TooShort` exactly when the packet is
shorter than 6 bytes, the declared length exceeds the physical size, or —
for codes whose data is parsed as options (Configure-Request/Nack/Reject
outside Closed) — the sliced packet fails the option walk (declared length
less than 4, an option with length < 2, or an option extending past the
packet end); in every error case the negotiation state field and the
identifier counter are left unchanged. -/
theorem C6_tooShort_iff {S : Type} (P : Protocol S) (m : SM S)
    (pkt : List Nat) (hbytes : ∀ b ∈ pkt, b < 256)
    (hnack : ∀ (s : S) (c : Nat) (d nd : List Nat) (s' : S),
      P.peerOptionReceived s c d = (.nack nd, s') → nd.length ≤ 253) :
    ((handle P m pkt).err = some .tooShort ↔ amendedMalformedC6 m.state pkt) ∧
    ((handle P m pkt).err ≠ none →
      (handle P m pkt).machine.state = m.state ∧
      (handle P m pkt).machine.id = m.id) := by
  by_cases h1 : pkt.length < 6
  · have hh : handle P m pkt = ⟨m, [], some .tooShort⟩ := by
      simp [handle, h1]
    rw [hh]
    exact ⟨⟨fun _ => Or.inl h1, fun _ => rfl⟩, fun _ => ⟨rfl, rfl⟩⟩
  · by_cases h2 : 256 * pkt.getD 4 0 + pkt.getD 5 0 + 2 > pkt.length
    · have hh : handle P m pkt = ⟨m, [], some .tooShort⟩ := by
        simp only [handle]
        rw [if_neg h1, if_pos h2]
      rw [hh]
      exact ⟨⟨fun _ => Or.inr (Or.inl h2), fun _ => rfl⟩, fun _ => ⟨rfl, rfl⟩⟩
    · have hsub : ∀ b ∈ pkt.take (256 * pkt.getD 4 0 + pkt.getD 5 0 + 2),
          b < 256 := fun b hb => hbytes b (List.mem_of_mem_take hb)
      have hfR : ∀ (a : Code × List Nat × S) (c : Nat) (d : List Nat),
          d.length ≤ 253 → (rcrStep P a c d).2 = none :=
        fun a c d hd => rcrStep_no_error P hnack a c d hd
      have hPnone : optionsOf (pkt.take (256 * pkt.getD 4 0 + pkt.getD 5 0 + 2))
            = none → ∀ s0 : S,
          (parse_options (pkt.take (256 * pkt.getD 4 0 + pkt.getD 5 0 + 2))
            (rcrStep P) (Code.configureAck, [], s0)).2 = some .tooShort :=
        fun hopt s0 => parse_options_none _ hfR _ hsub hopt _
      have hPsome : ∀ opts,
          optionsOf (pkt.take (256 * pkt.getD 4 0 + pkt.getD 5 0 + 2))
            = some opts → ∀ s0 : S,
          (parse_options (pkt.take (256 * pkt.getD 4 0 + pkt.getD 5 0 + 2))
            (rcrStep P) (Code.configureAck, [], s0)).2 = none := by
        intro opts hopt s0
        rw [parse_options_eq_foldOpts _ _ _ hopt]
        exact foldOpts_no_error _ opts _
          (fun a x hx => hfR a x.1 x.2 (optionsOf_data_le _ hsub opts hopt x hx))
      have hNnone : optionsOf (pkt.take (256 * pkt.getD 4 0 + pkt.getD 5 0 + 2))
            = none → ∀ cb : S → Nat → List Nat → S,
          (parse_options (pkt.take (256 * pkt.getD 4 0 + pkt.getD 5 0 + 2))
            (fun s c d => (cb s c d, none)) m.proto).2 = some .tooShort :=
        fun hopt cb => parse_options_none _ (fun a c d _ => rfl) _ hsub hopt _
      have hNsome : ∀ opts,
          optionsOf (pkt.take (256 * pkt.getD 4 0 + pkt.getD 5 0 + 2))
            = some opts → ∀ cb : S → Nat → List Nat → S,
          (parse_options (pkt.take (256 * pkt.getD 4 0 + pkt.getD 5 0 + 2))
            (fun s c d => (cb s c d, none)) m.proto).2 = none := by
        intro opts hopt cb
        rw [parse_options_eq_foldOpts _ _ _ hopt]
        exact foldOpts_no_error _ opts _ (fun a x hx => rfl)
      refine ⟨?_, ?_⟩
      · cases hcode : Code.ofNat (pkt.getD 2 0) <;> cases hstate : m.state <;>
          simp only [handle, if_neg h1, if_neg h2, hcode, hstate,
            decide_True, decide_False] <;>
          first
          | (refine ⟨fun hf => absurd hf (by simp), fun ham => ?_⟩
             exfalso
             simp only [amendedMalformedC6] at ham
             rcases ham with ha | hb | ⟨hs, hc, _⟩
             · exact h1 ha
             · exact h2 hb
             · first
               | exact hs rfl
               | (rw [hcode] at hc
                  rcases hc with hc | hc | hc <;> simp at hc))
          | (by_cases hopt : optionsOf
                 (pkt.take (256 * pkt.getD 4 0 + pkt.getD 5 0 + 2)) = none
             · cases hres : parse_options
                   (pkt.take (256 * pkt.getD 4 0 + pkt.getD 5 0 + 2))
                   (rcrStep P) (Code.configureAck, [], P.peerOptionsStart m.proto)
                 with
               | mk ra re =>
                 have hre : re = some .tooShort := by
                   have h5 := hPnone hopt (P.peerOptionsStart m.proto)
                   rw [hres] at h5
                   exact h5
                 subst hre
                 simp only [received_configure_req, hres]
                 exact iff_of_true (by trivial)
                   (Or.inr (Or.inr ⟨by decide, Or.inl hcode, hopt⟩))
             · cases hres : parse_options
                   (pkt.take (256 * pkt.getD 4 0 + pkt.getD 5 0 + 2))
                   (rcrStep P) (Code.configureAck, [], P.peerOptionsStart m.proto)
                 with
               | mk ra re =>
                 have hre : re = none := by
                   obtain ⟨opts, hopt2⟩ := Option.ne_none_iff_exists'.mp hopt
                   have h5 := hPsome opts hopt2 (P.peerOptionsStart m.proto)
                   rw [hres] at h5
                   exact h5
                 subst hre
                 refine ⟨fun hf => ?_, fun ham => ?_⟩
                 · exfalso
                   by_cases hack : ra.1 = Code.configureAck
                   · simp only [received_configure_req, hres, hack,
                       decide_True] at hf
                     first
                     | exact Option.noConfusion hf
                     | simp at hf
                   · simp only [received_configure_req, hres,
                       decide_eq_false hack] at hf
                     first
                     | exact Option.noConfusion hf
                     | simp at hf
                 · exfalso
                   simp only [amendedMalformedC6] at ham
                   rcases ham with ha | hb | ⟨_, _, hd⟩
                   · exact h1 ha
                   · exact h2 hb
                   · exact hopt hd)
          | (by_cases hopt : optionsOf
                 (pkt.take (256 * pkt.getD 4 0 + pkt.getD 5 0 + 2)) = none
             · cases hres : parse_options
                   (pkt.take (256 * pkt.getD 4 0 + pkt.getD 5 0 + 2))
                   (fun s c d => (P.ownOptionNacked s c d
                     (decide (Code.configureNack = Code.configureRej)), none))
                   m.proto with
               | mk ra re =>
                 have hre : re = some .tooShort := by
                   have h5 := hNnone hopt
                     (fun s c d => P.ownOptionNacked s c d
                       (decide (Code.configureNack = Code.configureRej)))
                   rw [hres] at h5
                   exact h5
                 subst hre
                 simp only [hres]
                 exact iff_of_true (by trivial)
                   (Or.inr (Or.inr ⟨by decide, Or.inr (Or.inl hcode), hopt⟩))
             · cases hres : parse_options
                   (pkt.take (256 * pkt.getD 4 0 + pkt.getD 5 0 + 2))
                   (fun s c d => (P.ownOptionNacked s c d
                     (decide (Code.configureNack = Code.configureRej)), none))
                   m.proto with
               | mk ra re =>
                 have hre : re = none := by
                   obtain ⟨opts, hopt2⟩ := Option.ne_none_iff_exists'.mp hopt
                   have h5 := hNsome opts hopt2
                     (fun s c d => P.ownOptionNacked s c d
                       (decide (Code.configureNack = Code.configureRej)))
                   rw [hres] at h5
                   exact h5
                 subst hre
                 refine ⟨fun hf => ?_, fun ham => ?_⟩
                 · exfalso
                   simp only [hres] at hf
                   first
                   | exact Option.noConfusion hf
                   | simp at hf
                 · exfalso
                   simp only [amendedMalformedC6] at ham
                   rcases ham with ha | hb | ⟨_, _, hd⟩
                   · exact h1 ha
                   · exact h2 hb
                   · exact hopt hd)
          | (by_cases hopt : optionsOf
                 (pkt.take (256 * pkt.getD 4 0 + pkt.getD 5 0 + 2)) = none
             · cases hres : parse_options
                   (pkt.take (256 * pkt.getD 4 0 + pkt.getD 5 0 + 2))
                   (fun s c d => (P.ownOptionNacked s c d true, none))
                   m.proto with
               | mk ra re =>
                 have hre : re = some .tooShort := by
                   have h5 := hNnone hopt
                     (fun s c d => P.ownOptionNacked s c d true)
                   rw [hres] at h5
                   exact h5
                 subst hre
                 simp only [hres]
                 exact iff_of_true (by trivial)
                   (Or.inr (Or.inr ⟨by decide, Or.inr (Or.inr hcode), hopt⟩))
             · cases hres : parse_options
                   (pkt.take (256 * pkt.getD 4 0 + pkt.getD 5 0 + 2))
                   (fun s c d => (P.ownOptionNacked s c d true, none))
                   m.proto with
               | mk ra re =>
                 have hre : re = none := by
                   obtain ⟨opts, hopt2⟩ := Option.ne_none_iff_exists'.mp hopt
                   have h5 := hNsome opts hopt2
                     (fun s c d => P.ownOptionNacked s c d true)
                   rw [hres] at h5
                   exact h5
                 subst hre
                 refine ⟨fun hf => ?_, fun ham => ?_⟩
                 · exfalso
                   simp only [hres] at hf
                   first
                   | exact Option.noConfusion hf
                   | simp at hf
                 · exfalso
                   simp only [amendedMalformedC6] at ham
                   rcases ham with ha | hb | ⟨_, _, hd⟩
                   · exact h1 ha
                   · exact h2 hb
                   · exact hopt hd)
      · intro herr
        cases hcode : Code.ofNat (pkt.getD 2 0) <;> cases hstate : m.state <;>
          simp only [handle, if_neg h1, if_neg h2, hcode, hstate,
            decide_True, decide_False] at herr ⊢ <;>
          first
          | exact absurd rfl herr
          | (cases hres : parse_options
                 (pkt.take (256 * pkt.getD 4 0 + pkt.getD 5 0 + 2))
                 (rcrStep P) (Code.configureAck, [], P.peerOptionsStart m.proto)
               with
             | mk ra re =>
               cases re with
               | some e =>
                 simp only [received_configure_req, hres]
                 first
                 | trivial
                 | exact ⟨by trivial, by trivial⟩
               | none =>
                 exfalso
                 apply herr
                 by_cases hack : ra.1 = Code.configureAck
                 · simp only [received_configure_req, hres, hack, decide_True]
                   try trivial
                 · simp only [received_configure_req, hres,
                     decide_eq_false hack]
                   try trivial)
          | (cases hres : parse_options
                 (pkt.take (256 * pkt.getD 4 0 + pkt.getD 5 0 + 2))
                 (fun s c d => (P.ownOptionNacked s c d
                     (decide (Code.configureNack = Code.configureRej)), none))
                 m.proto with
             | mk ra re =>
               cases re with
               | some e =>
                 simp only [hres]
                 first
                 | trivial
                 | exact ⟨by trivial, by trivial⟩
               | none =>
                 exfalso
                 apply herr
                 simp only [hres]
                 try trivial)
          | (cases hres : parse_options
                 (pkt.take (256 * pkt.getD 4 0 + pkt.getD 5 0 + 2))
                 (fun s c d => (P.ownOptionNacked s c d true, none))
                 m.proto with
             | mk ra re =>
               cases re with
               | some e =>
                 simp only [hres]
                 first
                 | trivial
                 | exact ⟨by trivial, by trivial⟩
               | none =>
                 exfalso
                 apply herr
                 simp only [hres]
                 try trivial)

/-- Witness for the amended C6: a 7-byte Configure-Request whose option
region is a single stray byte draws `TooShort` and leaves state and
identifier untouched. -/
theorem C6_witness :
    (handle demoProto ⟨1, .reqSent, []⟩ [0, 0, 1, 5, 0, 5, 9]).err =
      some .tooShort ∧
    (handle demoProto ⟨1, .reqSent, []⟩ [0, 0, 1, 5, 0, 5, 9]).machine.state =
      .reqSent ∧
    (handle demoProto ⟨1, .reqSent, []⟩ [0, 0, 1, 5, 0, 5, 9]).machine.id = 1 := by
  have hnackd : ∀ (s : List (Nat × List Nat × Bool)) (c : Nat)
      (d nd : List Nat) (s' : List (Nat × List Nat × Bool)),
      demoProto.peerOptionReceived s c d = (.nack nd, s') → nd.length ≤ 253 := by
    intro s c d nd s' h
    by_cases hc1 : c = 1
    · simp [demoProto, hc1] at h
      rcases h with ⟨h1, _⟩
      simp [← h1]
    · by_cases hc2 : c = 2
      · simp [demoProto, hc1, hc2] at h
      · simp [demoProto, hc1, hc2] at h
  have h := C6_tooShort_iff demoProto ⟨1, .reqSent, []⟩ [0, 0, 1, 5, 0, 5, 9]
    (by decide) hnackd
  have hm : amendedMalformedC6 NState.reqSent [0, 0, 1, 5, 0, 5, 9] := by
    refine Or.inr (Or.inr ⟨by decide, Or.inl (by decide), ?_⟩)
    simp [optionsOf, optionsOfGo]
  have he := h.1.mpr hm
  have hne : (handle demoProto ⟨1, .reqSent, []⟩ [0, 0, 1, 5, 0, 5, 9]).err ≠
      none := by
    rw [he]
    simp
  exact ⟨he, (h.2 hne).1, (h.2 hne).2⟩

lemma verdictCode_mem (v : Verdict) :
    verdictCode v = .configureAck ∨ verdictCode v = .configureNack ∨
      verdictCode v = .configureRej := by
  cases v <;> simp [verdictCode]

lemma reply_toNat_inj {a b : Code}
    (ha : a = .configureAck ∨ a = .configureNack ∨ a = .configureRej)
    (hb : b = .configureAck ∨ b = .configureNack ∨ b = .configureRej)
    (h : a.toNat = b.toNat) : a = b := by
  rcases ha with ha | ha | ha <;> rcases hb with hb | hb | hb <;>
    subst ha <;> subst hb <;> first | rfl | simp [Code.toNat] at h

lemma le_worstFrom (ev : List (Nat × List Nat × Verdict)) :
    ∀ c0 : Code, c0.toNat ≤ (worstFrom c0 ev).toNat := by
  induction ev with
  | nil => intro c0; exact le_rfl
  | cons x t ih =>
    intro c0
    have h1 : worstFrom c0 (x :: t) =
        worstFrom (maxCode c0 (verdictCode x.2.2)) t := rfl
    rw [h1]
    refine le_trans ?_ (ih (maxCode c0 (verdictCode x.2.2)))
    unfold maxCode
    split
    · omega
    · exact le_rfl

/-- One call of the per-option closure, written in terms of the declarative
verdict combinators. -/
lemma rcrStep_eq {S : Type} (P : Protocol S) (c0 : Code) (b0 : List Nat)
    (s : S) (c : Nat) (d : List Nat) (v : Verdict) (s' : S)
    (hv : P.peerOptionReceived s c d = (v, s'))
    (hd : (verdictData d v).length ≤ 253) :
    rcrStep P (c0, b0, s) c d =
      (if c0.toNat < (verdictCode v).toNat
       then ((verdictCode v, tlv c (verdictData d v), s'), none)
       else if c0 = verdictCode v
       then ((c0, b0 ++ tlv c (verdictData d v), s'), none)
       else ((c0, b0, s'), none)) := by
  have hd2 : ¬ ((verdictData d v).length + 2 > 255) := by omega
  cases v with
  | ack =>
    simp only [verdictCode, verdictData] at hd2 ⊢
    simp only [rcrStep, hv, appendOption, tlv, if_neg hd2]
    by_cases hlt : c0.toNat < Code.configureAck.toNat <;> simp [hlt]
  | nack nd =>
    simp only [verdictCode, verdictData] at hd2 ⊢
    simp only [rcrStep, hv, appendOption, tlv, if_neg hd2]
    by_cases hlt : c0.toNat < Code.configureNack.toNat <;> simp [hlt]
  | rej =>
    simp only [verdictCode, verdictData] at hd2 ⊢
    simp only [rcrStep, hv, appendOption, tlv, if_neg hd2]
    by_cases hlt : c0.toNat < Code.configureRej.toNat <;> simp [hlt]

lemma replyBody_cons (w : Code) (x : Nat × List Nat × Verdict)
    (ev : List (Nat × List Nat × Verdict)) :
    replyBody w (x :: ev) =
      (if verdictCode x.2.2 = w
       then tlv x.1 (verdictData x.2.1 x.2.2) ++ replyBody w ev
       else replyBody w ev) := by
  unfold replyBody
  by_cases h : verdictCode x.2.2 = w
  · simp [h]
  · simp [h]

lemma foldOpts_cons_ok {A : Type} (f : A → Nat → List Nat → A × Option Error)
    (a : A) (x : Nat × List Nat) (t : List (Nat × List Nat)) (a' : A)
    (h : f a x.1 x.2 = (a', none)) :
    foldOpts f a (x :: t) = foldOpts f a' t := by
  obtain ⟨c, d⟩ := x
  simp only [foldOpts, h]

/-- The running-worst/reset/append loop of `received_configure_req`, related
to the declarative worst code and reply body. -/
lemma foldOpts_rcr {S : Type} (P : Protocol S) :
    ∀ (opts : List (Nat × List Nat)) (c0 : Code) (b0 : List Nat) (s : S),
      (c0 = .configureAck ∨ c0 = .configureNack ∨ c0 = .configureRej) →
      (∀ x ∈ (evalOptions P s opts).1,
        (verdictData x.2.1 x.2.2).length ≤ 253) →
      foldOpts (rcrStep P) (c0, b0, s) opts =
        ((worstFrom c0 (evalOptions P s opts).1,
          (if worstFrom c0 (evalOptions P s opts).1 = c0 then b0 else []) ++
            replyBody (worstFrom c0 (evalOptions P s opts).1)
              (evalOptions P s opts).1,
          (evalOptions P s opts).2), none) := by
  intro opts
  induction opts with
  | nil =>
    intro c0 b0 s hc0 h253
    simp [foldOpts, evalOptions, worstFrom, replyBody]
  | cons cd t ih =>
    intro c0 b0 s hc0 h253
    obtain ⟨c, d⟩ := cd
    cases hv : P.peerOptionReceived s c d with
    | mk v s' =>
      have hev : evalOptions P s ((c, d) :: t) =
          ((c, d, v) :: (evalOptions P s' t).1, (evalOptions P s' t).2) := by
        simp [evalOptions, hv]
      rw [hev] at h253 ⊢
      have h253t : ∀ x ∈ (evalOptions P s' t).1,
          (verdictData x.2.1 x.2.2).length ≤ 253 :=
        fun x hx => h253 x (List.mem_cons_of_mem _ hx)
      have hd : (verdictData d v).length ≤ 253 := by
        have := h253 (c, d, v) (List.mem_cons_self _ _)
        simpa using this
      have hstep := rcrStep_eq P c0 b0 s c d v s' hv hd
      have hw : worstFrom c0 ((c, d, v) :: (evalOptions P s' t).1) =
          worstFrom (maxCode c0 (verdictCode v)) (evalOptions P s' t).1 := rfl
      by_cases hlt : c0.toNat < (verdictCode v).toNat
      · have h0 : rcrStep P (c0, b0, s) c d =
            ((verdictCode v, tlv c (verdictData d v), s'), none) :=
          hstep.trans (if_pos hlt)
        rw [foldOpts_cons_ok _ _ _ _ _ h0,
          ih (verdictCode v) (tlv c (verdictData d v)) s' (verdictCode_mem v)
            h253t]
        have hmax : maxCode c0 (verdictCode v) = verdictCode v := by
          unfold maxCode
          rw [if_pos hlt]
        rw [hw, hmax, replyBody_cons]
        have hne : worstFrom (verdictCode v) (evalOptions P s' t).1 ≠ c0 := by
          intro he
          have h3 := le_worstFrom (evalOptions P s' t).1 (verdictCode v)
          rw [he] at h3
          omega
        rw [if_neg hne]
        by_cases hwrc : worstFrom (verdictCode v) (evalOptions P s' t).1 =
            verdictCode v
        · rw [if_pos hwrc, if_pos (hwrc.symm ▸ rfl : verdictCode v =
            worstFrom (verdictCode v) (evalOptions P s' t).1)]
          simp
        · rw [if_neg hwrc,
            if_neg (fun hx => hwrc hx.symm)]
      · have hmax : maxCode c0 (verdictCode v) = c0 := by
          unfold maxCode
          rw [if_neg hlt]
        by_cases heq : c0 = verdictCode v
        · have h0 : rcrStep P (c0, b0, s) c d =
              ((c0, b0 ++ tlv c (verdictData d v), s'), none) :=
            hstep.trans ((if_neg hlt).trans (if_pos heq))
          rw [foldOpts_cons_ok _ _ _ _ _ h0,
            ih c0 (b0 ++ tlv c (verdictData d v)) s' hc0 h253t]
          rw [hw, hmax, replyBody_cons]
          by_cases hwc : worstFrom c0 (evalOptions P s' t).1 = c0
          · rw [if_pos hwc, if_pos hwc,
              if_pos (by rw [← heq, hwc] : verdictCode v =
                worstFrom c0 (evalOptions P s' t).1)]
            simp
          · rw [if_neg hwc, if_neg hwc,
              if_neg (fun hx => hwc (by rw [← hx, ← heq]))]
        · have h0 : rcrStep P (c0, b0, s) c d = ((c0, b0, s'), none) :=
            hstep.trans ((if_neg hlt).trans (if_neg heq))
          rw [foldOpts_cons_ok _ _ _ _ _ h0, ih c0 b0 s' hc0 h253t]
          rw [hw, hmax, replyBody_cons]
          have hne2 : ¬ (verdictCode v = worstFrom c0 (evalOptions P s' t).1) := by
            intro he
            have h3 := le_worstFrom (evalOptions P s' t).1 c0
            rw [← he] at h3
            have h4 : c0.toNat = (verdictCode v).toNat := by omega
            exact heq (reply_toNat_inj hc0 (verdictCode_mem v) h4)
          rw [if_neg hne2]

/-- **C1**: handling a well-formed Configure-Request evaluates the peer's
options in order under the running worst-verdict discipline (Ack < Nack <
Reject; the buffered reply is discarded whenever a strictly worse verdict
appears; an option is appended only while its verdict equals the running
worst): the net effect is exactly one reply whose code is the worst verdict
over all options, whose identifier is the incoming packet's, and whose body
lists precisely the options achieving that worst verdict, in order (with the
Nack's replacement data); the request is reported fully accepted iff that
code is Configure-Ack. -/
theorem C1_received_configure_req {S : Type} (P : Protocol S) (s : S)
    (pkt : List Nat) (opts : List (Nat × List Nat))
    (hopts : optionsOf pkt = some opts)
    (h253 : ∀ x ∈ (evalOptions P (P.peerOptionsStart s) opts).1,
      (verdictData x.2.1 x.2.2).length ≤ 253) :
    received_configure_req P s pkt =
      ⟨decide (worstFrom .configureAck
          (evalOptions P (P.peerOptionsStart s) opts).1 = .configureAck),
       (evalOptions P (P.peerOptionsStart s) opts).2,
       [.packet
         (worstFrom .configureAck
           (evalOptions P (P.peerOptionsStart s) opts).1)
         (pkt.getD 3 0)
         (replyBody
           (worstFrom .configureAck
             (evalOptions P (P.peerOptionsStart s) opts).1)
           (evalOptions P (P.peerOptionsStart s) opts).1)],
       none⟩ := by
  unfold received_configure_req
  rw [parse_options_eq_foldOpts _ _ _ hopts,
    foldOpts_rcr P opts .configureAck [] (P.peerOptionsStart s) (Or.inl rfl)
      h253]
  simp

/-- Witness for C1, demonstrating the claim's "in particular" instance: a
Configure-Request whose two options draw a Nack and a Reject yields a single
Configure-Reject reply under the incoming identifier 7, containing only the
rejected option. -/
theorem C1_witness :
    received_configure_req demoProto []
        [0xc0, 0x21, 1, 7, 0, 9, 1, 3, 7, 2, 2] =
      ⟨false, [], [.packet .configureRej 7 [2, 2]], none⟩ := by
  have h := C1_received_configure_req demoProto []
    [0xc0, 0x21, 1, 7, 0, 9, 1, 3, 7, 2, 2] [(1, [7]), (2, [])]
    (by simp [optionsOf, optionsOfGo]) (by decide)
  exact h.trans (by decide)

end PPProto
